import Mathlib

/-!
Shallow embedding of the piranha stale-feature-flag cleanup engine and proofs
about it.  The embedding covers: the tag-substitution and rule model of
`src/generic/piranha-tree-sitter/src/config.rs`, the source-code-unit
operations and comma recovery of
`src/polyglot/piranha/src/models/source_code_unit.rs`, and the project-level
outer loop and grep pre-filter of
`src/generic/piranha/src/piranha/flag_cleaner.rs`.

Strings are modelled over their character lists so that every definition is
executable inside the kernel; Rust byte offsets become character offsets.
Components of the repository that are not under `src/` (the `TagMatches` map,
`TSQuery` substitution, the `RuleStore`, and the tree-sitter library) are
modelled from the specification, as flagged in their doc comments.
-/

namespace Piranha

/-- Tests whether `pat` is a leading segment of `l` (char-list level model of
Rust `str::starts_with`). -/
def listIsPre : List Char → List Char → Bool
  | [], _ => true
  | _ :: _, [] => false
  | a :: as, b :: bs => a == b && listIsPre as bs

/-- Char-list model of a substring search, scanning left to right
(Rust `str::contains`). -/
def listHasSub (pat : List Char) : List Char → Bool
  | [] => listIsPre pat []
  | c :: cs => listIsPre pat (c :: cs) || listHasSub pat cs

/-- Model of Rust `str::contains`: plain substring test (spec §4.1 for
`TSQuery::contains`, which is not under `src/`). -/
def strContains (s pat : String) : Bool := listHasSub pat.data s.data

/-- Model of Rust `str::starts_with`. -/
def strStarts (s pat : String) : Bool := listIsPre pat.data s.data

/-- Leftmost non-overlapping replacement of the pattern `pat` by `rep`,
on character lists (model of Rust `str::replace`).  An empty pattern is left
untouched; all patterns used in the sources are non-empty. -/
def replaceAllAux (pat rep : List Char) : List Char → List Char
  | [] => []
  | c :: cs =>
    if h : pat ≠ [] ∧ listIsPre pat (c :: cs) = true then
      rep ++ replaceAllAux pat rep ((c :: cs).drop pat.length)
    else
      c :: replaceAllAux pat rep cs
termination_by l => l.length
decreasing_by
  · have hlen : 1 ≤ pat.length := by
      cases pat with
      | nil => exact absurd rfl h.1
      | cons a as => exact Nat.succ_le_succ (Nat.zero_le _)
    simp only [List.length_drop, List.length_cons]
    omega
  · simp only [List.length_cons]
    omega

/-- Model of Rust `str::replace`: replace every (leftmost, non-overlapping)
occurrence of `pat` in `s` by `rep`. -/
def strReplace (s pat rep : String) : String :=
  ⟨replaceAllAux pat.data rep.data s.data⟩

/-- Modelled from the spec: the `TagMatches` tag→text map of
`piranha-tree-sitter/src/tree_sitter.rs` (not under `src/`).  Spec §3: keys
are unique; we model the map as an association list whose operations keep key
uniqueness, mirroring Rust's `HashMap<String, String>`. -/
abbrev TagMatches := List (String × String)

/-- HashMap lookup (`TagMatches::get`). -/
def tmGet : TagMatches → String → Option String
  | [], _ => none
  | p :: ps, k => if p.1 = k then some p.2 else tmGet ps k

/-- The keys of a tag map. -/
def tmKeys (m : TagMatches) : List String := m.map Prod.fst

/-- HashMap insertion: overwrite the value at an existing key, otherwise
append the new binding. -/
def tmInsert (m : TagMatches) (k v : String) : TagMatches :=
  if k ∈ tmKeys m then m.map (fun q => if q.1 = k then (q.1, v) else q)
  else m ++ [(k, v)]

/-- Rust `HashMap::extend`: insert every entry, overwriting existing keys. -/
def tmExtend (m : TagMatches) (entries : List (String × String)) : TagMatches :=
  entries.foldl (fun acc p => tmInsert acc p.1 p.2) m

/-- Rust `collect::<HashMap<_, _>>()` on a list of pairs: one entry per
distinct key, later pairs overwriting earlier ones. -/
def hashMapCollect : List (String × String) → TagMatches
  | [] => []
  | p :: ps =>
    if p.1 ∈ (ps.map Prod.fst) then hashMapCollect ps else p :: hashMapCollect ps

/-- Modelled from the spec (§4.1, `substitute(template, tags)`, implemented by
`TSQuery::substitute_tags` which is not under `src/`): replaces every
occurrence of `@k` in the template with `tags[k]`; absent tags leave the
occurrence intact. -/
def substituteTags (template : String) (tags : TagMatches) : String :=
  tags.foldl (fun acc p => strReplace acc ("@" ++ p.1) p.2) template

/-- The `Constraint` struct of `config.rs` (`TSQuery` is modelled as the
string it wraps, `Pred` as its string payload). -/
structure Constraint where
  matcher : String
  predicate : String
  queries : List String
deriving DecidableEq

/-- The `Rule` struct of `config.rs`. -/
structure Rule where
  name : String
  query : String
  replace_node : String
  replace : String
  groups : Option (List String)
  holes : Option (List String)
  constraint : Option Constraint
  grep_heuristics : Option (List String)
deriving DecidableEq

/-- `Rule::update` (config.rs:121-132): rebuild the rule with a new query and
replacement, all other fields copied. -/
def Rule.update (r : Rule) (query : String) (replace : String) : Rule :=
  { name := r.name
    query := query
    replace_node := r.replace_node
    replace := replace
    groups := r.groups
    holes := r.holes
    constraint := r.constraint
    grep_heuristics := r.grep_heuristics }

/-- The map `relevant_substitutions` built inside `Rule::try_instantiate`
(config.rs:146-152): the restriction of `substitutions` to the bound holes,
collected into a `HashMap`. -/
def relevantSubstitutions (holes : List String) (substitutions : TagMatches) :
    TagMatches :=
  hashMapCollect
    (holes.filterMap (fun hole =>
      (tmGet substitutions hole).map (fun subs => (hole, subs))))

/-- `Rule::try_instantiate` (config.rs:144-165).  The `format!`-built error
message is modelled by a fixed string. -/
def Rule.try_instantiate (r : Rule) (substitutions : TagMatches) :
    Except String Rule :=
  match r.holes with
  | some holes =>
    let relevant_substitutions := relevantSubstitutions holes substitutions
    if relevant_substitutions.length = holes.length then
      .ok (r.update (substituteTags r.query relevant_substitutions)
        (substituteTags r.replace relevant_substitutions))
    else
      .error "Could not instantiate a rule - some holes not found in table"
  | none => .ok r

/-- `Rule::is_feature_flag_cleanup` (config.rs:134-138). -/
def Rule.is_feature_flag_cleanup (r : Rule) : Bool :=
  (r.groups.map (fun tags => tags.any (fun t => t = "Feature-flag API cleanup"))).getD false

/-- `Rule::add_grep_heuristics_for_seed_rules` (config.rs:167-178).  The
`self.holes.as_ref().unwrap()` panic on an absent holes list is modelled by
`none`. -/
def Rule.add_grep_heuristics_for_seed_rules (r : Rule)
    (substitutions : TagMatches) : Option Rule :=
  match r.holes with
  | none => none
  | some holes =>
    let gh := holes.filterMap (fun h =>
      match tmGet substitutions h with
      | some x => if strContains r.query x then some x else none
      | none => none)
    some { r with grep_heuristics := some gh }

/-- `Rule::add_group` (config.rs:184-190). -/
def Rule.add_group (r : Rule) (group_name : String) : Rule :=
  match r.groups with
  | none => { r with groups := some [group_name] }
  | some gs => { r with groups := some (gs ++ [group_name]) }

/-! Lemmas about the `HashMap` model used by `try_instantiate`. -/

lemma map_fst_hashMapCollect (ps : List (String × String)) :
    (hashMapCollect ps).map Prod.fst = (ps.map Prod.fst).dedup := by
  induction ps with
  | nil => rfl
  | cons p ps ih =>
    by_cases h : p.1 ∈ ps.map Prod.fst
    · rw [hashMapCollect, if_pos h, ih, List.map_cons, List.dedup_cons_of_mem h]
    · rw [hashMapCollect, if_neg h, List.map_cons, ih, List.map_cons,
        List.dedup_cons_of_not_mem h]

lemma map_fst_boundPairs (hs : List String) (t : TagMatches) :
    ((hs.filterMap (fun hole =>
        (tmGet t hole).map (fun subs => (hole, subs)))).map Prod.fst) =
      hs.filter (fun h => (tmGet t h).isSome) := by
  induction hs with
  | nil => rfl
  | cons h hs ih =>
    cases hg : tmGet t h with
    | none => simp [List.filterMap_cons, List.filter_cons, hg, ih]
    | some v => simp [List.filterMap_cons, List.filter_cons, hg, ih]

lemma relevantSubstitutions_length (hs : List String) (t : TagMatches) :
    (relevantSubstitutions hs t).length =
      ((hs.filter (fun h => (tmGet t h).isSome)).dedup).length := by
  have h1 := map_fst_hashMapCollect
    (hs.filterMap (fun hole => (tmGet t hole).map (fun subs => (hole, subs))))
  have h2 := congrArg List.length h1
  rw [List.length_map] at h2
  rw [relevantSubstitutions, h2, map_fst_boundPairs]

lemma relevantSubstitutions_length_eq_iff (hs : List String) (t : TagMatches) :
    (relevantSubstitutions hs t).length = hs.length ↔
      hs.Nodup ∧ ∀ h ∈ hs, (tmGet t h).isSome := by
  rw [relevantSubstitutions_length]
  constructor
  · intro hlen
    have hfil : (hs.filter (fun h => (tmGet t h).isSome)).Sublist hs :=
      List.filter_sublist hs
    have hded : ((hs.filter (fun h => (tmGet t h).isSome)).dedup).Sublist
        (hs.filter (fun h => (tmGet t h).isSome)) :=
      List.dedup_sublist _
    have hle1 := hded.length_le
    have hle2 := hfil.length_le
    have hflen : (hs.filter (fun h => (tmGet t h).isSome)).length = hs.length := by
      omega
    have hfeq : hs.filter (fun h => (tmGet t h).isSome) = hs :=
      hfil.eq_of_length hflen
    have hbound : ∀ h ∈ hs, (tmGet t h).isSome = true :=
      List.filter_eq_self.mp hfeq
    have hdlen : ((hs.filter (fun h => (tmGet t h).isSome)).dedup).length =
        (hs.filter (fun h => (tmGet t h).isSome)).length := by omega
    have hdeq := hded.eq_of_length hdlen
    have hnd : hs.Nodup := by
      have := List.nodup_dedup (hs.filter (fun h => (tmGet t h).isSome))
      rw [hdeq, hfeq] at this
      exact this
    exact ⟨hnd, hbound⟩
  · rintro ⟨hnd, hbound⟩
    have hfeq : hs.filter (fun h => (tmGet t h).isSome) = hs :=
      List.filter_eq_self.mpr hbound
    rw [hfeq, hnd.dedup]

/-- A concrete rule whose `holes` list repeats the hole `"a"`. -/
def ruleRepeatedHole : Rule :=
  { name := "repeated_hole_rule"
    query := "(call (identifier) @a)"
    replace_node := "a"
    replace := ""
    groups := none
    holes := some ["a", "a"]
    constraint := none
    grep_heuristics := none }

/-- C1, counterexample: for `ruleRepeatedHole` every element of `holes` (both
are the hole `"a"`) is bound in the tag map `[("a", "x")]`, yet
`try_instantiate` returns an error, because the key-unique map of bound holes
has fewer entries than the `holes` list.  So "returns an error if and only if
some element of `r.holes` is not bound in `t`" fails. -/
theorem c1_counterexample :
    ruleRepeatedHole.holes = some ["a", "a"] ∧
    (tmGet [("a", "x")] "a").isSome = true ∧
    Rule.try_instantiate ruleRepeatedHole [("a", "x")] =
      Except.error "Could not instantiate a rule - some holes not found in table" := by
  exact ⟨rfl, rfl, rfl⟩

/-- C1 (amended): `try_instantiate` fails exactly when `holes` is present and
is either not duplicate-free or has an element unbound in the tag map; a rule
with `holes` absent is returned unchanged; and on a duplicate-free, fully
bound holes list the result substitutes the bound hole values into `query`
and `replace`. -/
theorem c1_try_instantiate_characterization (r : Rule) (t : TagMatches) :
    ((∃ e, r.try_instantiate t = .error e) ↔
      (∃ hs, r.holes = some hs ∧
        ¬(hs.Nodup ∧ ∀ h ∈ hs, (tmGet t h).isSome))) ∧
    (r.holes = none → r.try_instantiate t = .ok r) ∧
    (∀ hs, r.holes = some hs → hs.Nodup → (∀ h ∈ hs, (tmGet t h).isSome) →
      r.try_instantiate t = .ok (r.update
        (substituteTags r.query (relevantSubstitutions hs t))
        (substituteTags r.replace (relevantSubstitutions hs t)))) := by
  refine ⟨?_, ?_, ?_⟩
  · constructor
    · rintro ⟨e, he⟩
      cases hh : r.holes with
      | none => simp [Rule.try_instantiate, hh] at he
      | some hs =>
        refine ⟨hs, rfl, ?_⟩
        intro hc
        have hlen := (relevantSubstitutions_length_eq_iff hs t).mpr hc
        simp [Rule.try_instantiate, hh, hlen] at he
    · rintro ⟨hs, hhs, hne⟩
      by_cases hlen : (relevantSubstitutions hs t).length = hs.length
      · exact absurd ((relevantSubstitutions_length_eq_iff hs t).mp hlen) hne
      · refine ⟨"Could not instantiate a rule - some holes not found in table", ?_⟩
        simp [Rule.try_instantiate, hhs, hlen]
  · intro hh
    simp [Rule.try_instantiate, hh]
  · intro hs hh hnd hbound
    have hlen := (relevantSubstitutions_length_eq_iff hs t).mpr ⟨hnd, hbound⟩
    simp [Rule.try_instantiate, hh, hlen]

/-- A concrete rule with one hole, used by the C1 witness. -/
def ruleOneHole : Rule :=
  { name := "one_hole_rule"
    query := "(call (identifier) @stale_flag_name)"
    replace_node := "a"
    replace := "@treated"
    groups := none
    holes := some ["stale_flag_name"]
    constraint := none
    grep_heuristics := none }

/-- Witness for C1: instantiating `ruleOneHole` with its single hole bound
succeeds and substitutes the binding into query and replace. -/
theorem c1_witness :
    Rule.try_instantiate ruleOneHole [("stale_flag_name", "FOO")] =
      .ok (ruleOneHole.update
        (substituteTags ruleOneHole.query
          (relevantSubstitutions ["stale_flag_name"] [("stale_flag_name", "FOO")]))
        (substituteTags ruleOneHole.replace
          (relevantSubstitutions ["stale_flag_name"] [("stale_flag_name", "FOO")]))) :=
  (c1_try_instantiate_characterization ruleOneHole [("stale_flag_name", "FOO")]).2.2
    ["stale_flag_name"] rfl (by decide) (by decide)

/-- C8: instantiation changes only `query` and `replace`.  Whenever
`try_instantiate` succeeds, the resulting rule keeps the `name`,
`replace_node`, `holes`, `groups`, `grep_heuristics` and, in particular, the
`constraint` of the input rule unchanged. -/
theorem c8_instantiation_frame (r : Rule) (t : TagMatches) (r' : Rule)
    (h : r.try_instantiate t = .ok r') :
    r'.name = r.name ∧ r'.replace_node = r.replace_node ∧ r'.holes = r.holes ∧
    r'.groups = r.groups ∧ r'.grep_heuristics = r.grep_heuristics ∧
    r'.constraint = r.constraint := by
  cases hh : r.holes with
  | none =>
    simp only [Rule.try_instantiate, hh, Except.ok.injEq] at h
    subst h
    simp [hh]
  | some hs =>
    simp only [Rule.try_instantiate, hh] at h
    by_cases hlen : (relevantSubstitutions hs t).length = hs.length
    · rw [if_pos hlen] at h
      simp only [Except.ok.injEq] at h
      subst h
      simp [Rule.update, hh]
    · rw [if_neg hlen] at h
      exact absurd h (by simp)

/-- A concrete rule with `holes` absent, used by the C8 and C10 witnesses. -/
def ruleNoHoles : Rule :=
  { name := "no_holes_rule"
    query := "(true) @t"
    replace_node := "t"
    replace := "false"
    groups := some ["Feature-flag API cleanup"]
    holes := none
    constraint := some { matcher := "(method_declaration) @md"
                         predicate := "None"
                         queries := ["(return_statement) @r"] }
    grep_heuristics := none }

/-- Witness for C8: instantiating `ruleNoHoles` succeeds and every field other
than query/replace — in particular the constraint — is unchanged. -/
theorem c8_witness :
    ruleNoHoles.name = ruleNoHoles.name ∧
    ruleNoHoles.replace_node = ruleNoHoles.replace_node ∧
    ruleNoHoles.holes = ruleNoHoles.holes ∧
    ruleNoHoles.groups = ruleNoHoles.groups ∧
    ruleNoHoles.grep_heuristics = ruleNoHoles.grep_heuristics ∧
    ruleNoHoles.constraint = ruleNoHoles.constraint :=
  c8_instantiation_frame ruleNoHoles [("a", "x")] ruleNoHoles rfl

/-- C5: `add_grep_heuristics_for_seed_rules` populates `grep_heuristics` with
exactly those hole bindings whose bound text occurs as a substring of the
rule's `query`; a binding occurring only in `replace` contributes nothing. -/
theorem c5_derive_grep_heuristics (r : Rule) (t : TagMatches) (hs : List String)
    (hh : r.holes = some hs) :
    ∃ gh, r.add_grep_heuristics_for_seed_rules t =
        some { r with grep_heuristics := some gh } ∧
      ∀ x, x ∈ gh ↔
        ∃ h ∈ hs, tmGet t h = some x ∧ strContains r.query x = true := by
  refine ⟨hs.filterMap (fun h =>
    match tmGet t h with
    | some x => if strContains r.query x then some x else none
    | none => none), ?_, ?_⟩
  · simp [Rule.add_grep_heuristics_for_seed_rules, hh]
  · intro x
    rw [List.mem_filterMap]
    constructor
    · rintro ⟨h, hmem, hf⟩
      cases hg : tmGet t h with
      | none => simp [hg] at hf
      | some y =>
        by_cases hc : strContains r.query y = true
        · simp only [hg, hc, if_true] at hf
          injection hf with hxy
          subst hxy
          exact ⟨h, hmem, hg, hc⟩
        · simp [hg, hc] at hf
    · rintro ⟨h, hmem, hg, hc⟩
      exact ⟨h, hmem, by simp [hg, hc]⟩

/-- A concrete seed rule used by the C5 witness: both holes are bound, but
only the binding of `stale_flag_name` occurs in the query (the binding of
`treated` occurs only in the replacement). -/
def ruleSeedC5 : Rule :=
  { name := "seed_rule"
    query := "(call FOO) @c"
    replace_node := "c"
    replace := "@treated"
    groups := none
    holes := some ["stale_flag_name", "treated"]
    constraint := none
    grep_heuristics := none }

/-- Witness for C5: on `ruleSeedC5` with bindings `FOO` (occurs in the query)
and `true` (occurs only in the replacement), `"FOO"` becomes a heuristic. -/
theorem c5_witness :
    ∃ gh, ruleSeedC5.add_grep_heuristics_for_seed_rules
          [("stale_flag_name", "FOO"), ("treated", "true")] =
        some { ruleSeedC5 with grep_heuristics := some gh } ∧
      ∀ x, x ∈ gh ↔
        ∃ h ∈ ["stale_flag_name", "treated"],
          tmGet [("stale_flag_name", "FOO"), ("treated", "true")] h = some x ∧
          strContains ruleSeedC5.query x = true :=
  c5_derive_grep_heuristics ruleSeedC5
    [("stale_flag_name", "FOO"), ("treated", "true")]
    ["stale_flag_name", "treated"] rfl

/-- C10: calling `add_grep_heuristics_for_seed_rules` on a rule whose `holes`
field is absent panics (`self.holes.as_ref().unwrap()` on `None`), whatever
the substitution map is.  The panic is modelled by `none`. -/
theorem c10_grep_heuristics_requires_holes (r : Rule) (t : TagMatches)
    (h : r.holes = none) :
    r.add_grep_heuristics_for_seed_rules t = none := by
  simp [Rule.add_grep_heuristics_for_seed_rules, h]

/-- Witness for C10: the concrete holes-free rule makes the operation panic
even on a well-populated substitution map. -/
theorem c10_witness :
    ruleNoHoles.add_grep_heuristics_for_seed_rules
      [("stale_flag_name", "FOO"), ("treated", "true")] = none :=
  c10_grep_heuristics_requires_holes ruleNoHoles
    [("stale_flag_name", "FOO"), ("treated", "true")] rfl

/-- The `Args` CLI struct of `config.rs` (clap attributes dropped). -/
structure Args where
  path_to_codebase : String
  language : String
  flag_name : String
  flag_namespace : String
  flag_value : Bool
  path_to_configuration : String

/-- The `PiranhaArguments` struct of `config.rs`. -/
structure PiranhaArguments where
  path_to_code_base : String
  language : String
  input_substitutions : TagMatches
  path_to_configurations : String

/-- Rust `format!` of a boolean, as used on `args.flag_value`. -/
def boolString (b : Bool) : String := if b then "true" else "false"

/-- `PiranhaArguments::new` (config.rs:33-56): the seed substitution map is
built from the four CLI-derived bindings (the `println!` is I/O and dropped). -/
def PiranhaArguments.new (args : Args) : PiranhaArguments :=
  { path_to_code_base := args.path_to_codebase
    language := args.language
    input_substitutions := hashMapCollect
      [("stale_flag_name", args.flag_name),
       ("treated", boolString args.flag_value),
       ("namespace", args.flag_namespace),
       ("treated_complement", boolString (!args.flag_value))]
    path_to_configurations := args.path_to_configuration }

/-- C9: the seed substitution map of `PiranhaArguments::new` has exactly the
four bindings `stale_flag_name ↦ flag_name`, `treated ↦ toString flag_value`,
`treated_complement ↦ toString (not flag_value)` and
`namespace ↦ flag_namespace`. -/
theorem c9_seed_substitutions (args : Args) :
    tmGet (PiranhaArguments.new args).input_substitutions "stale_flag_name" =
      some args.flag_name ∧
    tmGet (PiranhaArguments.new args).input_substitutions "treated" =
      some (boolString args.flag_value) ∧
    tmGet (PiranhaArguments.new args).input_substitutions "treated_complement" =
      some (boolString (!args.flag_value)) ∧
    tmGet (PiranhaArguments.new args).input_substitutions "namespace" =
      some args.flag_namespace ∧
    tmKeys (PiranhaArguments.new args).input_substitutions =
      ["stale_flag_name", "treated", "namespace", "treated_complement"] :=
  ⟨rfl, rfl, rfl, rfl, rfl⟩

/-! Source Code Unit (`src/polyglot/piranha/src/models/source_code_unit.rs`).
The tree-sitter library is external (spec §1 OUT OF SCOPE); a parsed tree is
modelled by its post-order node list, each node carrying the flags and the
character range the recovery code reads. -/

/-- Modelled from the spec: a tree-sitter node, reduced to what
`remove_additional_comma_from_sequence_list` inspects: the `extra`, `error`
and `missing` flags and the node's source range (characters standing in for
bytes). -/
structure TSNode where
  isExtra : Bool
  isError : Bool
  isMissing : Bool
  startByte : Nat
  endByte : Nat
deriving DecidableEq

/-- Modelled from the spec: a tree-sitter tree, reduced to its post-order
node list (`traverse(walk, Order::Post)`). -/
structure TSTree where
  nodes : List TSNode
deriving DecidableEq

/-- A tree-sitter root carries the error flag exactly when the tree contains
an `ERROR` or `MISSING` node (`Node::has_error`). -/
def TSTree.rootHasError (t : TSTree) : Bool :=
  t.nodes.any (fun n => n.isError || n.isMissing)

/-- The source text under a node (`Node::utf8_text`). -/
def nodeText (code : String) (n : TSNode) : String :=
  ⟨(code.data.take n.endByte).drop n.startByte⟩

/-- Deleting a node's range from the source (`_apply_edit(n.range(), "")`). -/
def deleteRange (code : String) (n : TSNode) : String :=
  ⟨code.data.take n.startByte ++ code.data.drop n.endByte⟩

/-- `eq_without_whitespace` of `src/polyglot/piranha/src/utilities/mod.rs`:
compare after removing newlines and spaces. -/
def eq_without_whitespace (s1 s2 : String) : Bool :=
  strReplace (strReplace s1 "\n" "") " " "" ==
    strReplace (strReplace s2 "\n" "") " " ""

/-- The `SourceCodeUnit` struct. -/
structure SourceCodeUnit where
  ast : TSTree
  code : String
  substitutions : TagMatches
  path : String
deriving DecidableEq

/-- The filesystem effect of `SourceCodeUnit::persist`. -/
inductive FsAction where
  | deleteFile (path : String)
  | writeFile (path : String) (content : String)
deriving DecidableEq

/-- `SourceCodeUnit::persist` (source_code_unit.rs:47-53): delete the file
when the code is empty, otherwise write the code to the unit's path. -/
def SourceCodeUnit.persist (u : SourceCodeUnit) : FsAction :=
  if u.code = "" then .deleteFile u.path else .writeFile u.path u.code

/-- C6: `persist` deletes the file when the unit's code is the empty string,
otherwise writes the unit's code to the unit's path; it never writes an empty
file. -/
theorem c6_persist (u : SourceCodeUnit) :
    (u.code = "" → u.persist = FsAction.deleteFile u.path) ∧
    (u.code ≠ "" → u.persist = FsAction.writeFile u.path u.code) ∧
    (∀ p c, u.persist = FsAction.writeFile p c → c ≠ "") := by
  refine ⟨?_, ?_, ?_⟩
  · intro h
    simp [SourceCodeUnit.persist, h]
  · intro h
    simp [SourceCodeUnit.persist, h]
  · intro p c hw
    by_cases h : u.code = ""
    · simp [SourceCodeUnit.persist, h] at hw
    · simp only [SourceCodeUnit.persist, if_neg h, FsAction.writeFile.injEq] at hw
      rw [← hw.2]
      exact h

/-- A concrete one-statement source code unit used by the C6 witness. -/
def unitNonEmpty : SourceCodeUnit :=
  { ast := ⟨[]⟩
    code := "int x = 0;"
    substitutions := []
    path := "Sample.java" }

/-- Witness for C6: a unit with non-empty code is written back, not deleted. -/
theorem c6_witness :
    unitNonEmpty.persist = FsAction.writeFile "Sample.java" "int x = 0;" :=
  (c6_persist unitNonEmpty).2.1 (by decide)

/-! Lemmas about `tmInsert`/`tmExtend`, used for C7. -/

lemma mem_tmKeys_cons (q : String × String) (m : TagMatches) (k : String) :
    k ∈ tmKeys (q :: m) ↔ k = q.1 ∨ k ∈ tmKeys m := by
  simp [tmKeys, eq_comm]

lemma tmGet_map_overwrite (m : TagMatches) (k v : String) (hk : k ∈ tmKeys m) :
    tmGet (m.map (fun q => if q.1 = k then (q.1, v) else q)) k = some v := by
  induction m with
  | nil => simp [tmKeys] at hk
  | cons q m ih =>
    by_cases hq : q.1 = k
    · simp [tmGet, hq]
    · have hk' : k ∈ tmKeys m := by
        rcases (mem_tmKeys_cons q m k).mp hk with h | h
        · exact absurd h.symm hq
        · exact h
      simp only [List.map_cons, if_neg hq, tmGet]
      exact ih hk'

lemma tmGet_map_overwrite_ne (m : TagMatches) (k v k' : String)
    (h : k' ≠ k) :
    tmGet (m.map (fun q => if q.1 = k then (q.1, v) else q)) k' = tmGet m k' := by
  induction m with
  | nil => rfl
  | cons q m ih =>
    by_cases hq : q.1 = k
    · have hq' : q.1 ≠ k' := by
        rw [hq]
        exact fun hc => h hc.symm
      simp only [List.map_cons, if_pos hq, tmGet]
      rw [if_neg hq', if_neg hq']
      exact ih
    · simp only [List.map_cons, if_neg hq, tmGet]
      by_cases hq' : q.1 = k'
      · rw [if_pos hq', if_pos hq']
      · rw [if_neg hq', if_neg hq']
        exact ih

lemma tmGet_append_single (m : TagMatches) (k v : String)
    (hk : k ∉ tmKeys m) : tmGet (m ++ [(k, v)]) k = some v := by
  induction m with
  | nil => simp [tmGet]
  | cons q m ih =>
    have hq : q.1 ≠ k := fun h =>
      hk ((mem_tmKeys_cons q m k).mpr (Or.inl h.symm))
    have hk' : k ∉ tmKeys m := fun h =>
      hk ((mem_tmKeys_cons q m k).mpr (Or.inr h))
    simp only [List.cons_append, tmGet]
    rw [if_neg hq]
    exact ih hk'

lemma tmGet_append_single_ne (m : TagMatches) (k v k' : String)
    (h : k' ≠ k) : tmGet (m ++ [(k, v)]) k' = tmGet m k' := by
  induction m with
  | nil =>
    simp only [List.nil_append, tmGet]
    rw [if_neg (fun hc => h hc.symm)]
  | cons q m ih =>
    simp only [List.cons_append, tmGet]
    by_cases hq : q.1 = k'
    · rw [if_pos hq, if_pos hq]
    · rw [if_neg hq, if_neg hq]
      exact ih

lemma tmGet_tmInsert_self (m : TagMatches) (k v : String) :
    tmGet (tmInsert m k v) k = some v := by
  unfold tmInsert
  by_cases hk : k ∈ tmKeys m
  · rw [if_pos hk]
    exact tmGet_map_overwrite m k v hk
  · rw [if_neg hk]
    exact tmGet_append_single m k v hk

lemma tmGet_tmInsert_ne (m : TagMatches) (k v k' : String) (h : k' ≠ k) :
    tmGet (tmInsert m k v) k' = tmGet m k' := by
  unfold tmInsert
  by_cases hk : k ∈ tmKeys m
  · rw [if_pos hk]
    exact tmGet_map_overwrite_ne m k v k' h
  · rw [if_neg hk]
    exact tmGet_append_single_ne m k v k' h

lemma tmGet_tmExtend_of_not_mem (m : TagMatches)
    (entries : List (String × String)) (k : String)
    (h : k ∉ entries.map Prod.fst) :
    tmGet (tmExtend m entries) k = tmGet m k := by
  induction entries generalizing m with
  | nil => rfl
  | cons p ps ih =>
    have hne : k ≠ p.1 := fun hc =>
      h (by rw [List.map_cons]; exact List.mem_cons.mpr (Or.inl hc))
    have hrest : k ∉ ps.map Prod.fst := fun hc =>
      h (by rw [List.map_cons]; exact List.mem_cons.mpr (Or.inr hc))
    show tmGet (tmExtend (tmInsert m p.1 p.2) ps) k = tmGet m k
    rw [ih (tmInsert m p.1 p.2) hrest]
    exact tmGet_tmInsert_ne m p.1 p.2 k hne

lemma isSome_tmGet_tmExtend_of_isSome (m : TagMatches)
    (entries : List (String × String)) (k : String)
    (h : (tmGet m k).isSome = true) :
    (tmGet (tmExtend m entries) k).isSome = true := by
  induction entries generalizing m with
  | nil => exact h
  | cons p ps ih =>
    show (tmGet (tmExtend (tmInsert m p.1 p.2) ps) k).isSome = true
    apply ih
    by_cases hk : k = p.1
    · subst hk
      rw [tmGet_tmInsert_self]
      rfl
    · rw [tmGet_tmInsert_ne m p.1 p.2 k hk]
      exact h

lemma isSome_tmGet_tmExtend_of_mem (m : TagMatches)
    (entries : List (String × String)) (k : String)
    (h : k ∈ entries.map Prod.fst) :
    (tmGet (tmExtend m entries) k).isSome = true := by
  induction entries generalizing m with
  | nil => simp at h
  | cons p ps ih =>
    show (tmGet (tmExtend (tmInsert m p.1 p.2) ps) k).isSome = true
    by_cases hk : k ∈ ps.map Prod.fst
    · exact ih (tmInsert m p.1 p.2) hk
    · have hcons : k ∈ p.1 :: ps.map Prod.fst := by
        rw [← List.map_cons]
        exact h
      have hkp : k = p.1 := by
        rcases List.mem_cons.mp hcons with h1 | h1
        · exact h1
        · exact absurd h1 hk
      apply isSome_tmGet_tmExtend_of_isSome
      subst hkp
      rw [tmGet_tmInsert_self]
      rfl

/-- Modelled from the spec: the `RuleStore` (not under `src/`), reduced to the
fields the claims touch — the seed/input substitution map (spec §4.4
`add_to_input_substitutions`), the global rule partition, and the target
language name. -/
structure RuleStore where
  input_substitutions : TagMatches
  global_rules : List Rule
  language_name : String
deriving DecidableEq

/-- Modelled from the spec (§4.4): `RuleStore::add_to_input_substitutions`
extends the seed tag map with the given bindings. -/
def RuleStore.add_to_input_substitutions (s : RuleStore) (new : TagMatches) :
    RuleStore :=
  { s with input_substitutions := tmExtend s.input_substitutions new }

/-- `SourceCodeUnit::add_to_substitutions` (source_code_unit.rs:180-187):
extend the unit's local tag map with all entries, and publish to the rule
store exactly the entries whose key starts with `global_var_`.  The incoming
`new_entries` is a `HashMap`, hence key-unique, so the filtered `collect` is
a plain filter. -/
def SourceCodeUnit.add_to_substitutions (u : SourceCodeUnit)
    (new_entries : TagMatches) (rule_store : RuleStore) :
    SourceCodeUnit × RuleStore :=
  let u' := { u with substitutions := tmExtend u.substitutions new_entries }
  let global_substitutions :=
    new_entries.filter (fun e => strStarts e.1 "global_var_")
  (u', rule_store.add_to_input_substitutions global_substitutions)

/-- C7: `add_to_substitutions` extends the unit's local tag map with all the
entries (its domain never shrinks and gains every new key), and forwards to
the store's seed substitutions exactly the entries whose key starts with
`global_var_`; keys without that prefix keep their previous store binding. -/
theorem c7_add_to_substitutions (u : SourceCodeUnit) (new_entries : TagMatches)
    (store : RuleStore) :
    (∀ k, (tmGet u.substitutions k).isSome = true →
      (tmGet (u.add_to_substitutions new_entries store).1.substitutions k).isSome
        = true) ∧
    (∀ k, k ∈ new_entries.map Prod.fst →
      (tmGet (u.add_to_substitutions new_entries store).1.substitutions k).isSome
        = true) ∧
    ((u.add_to_substitutions new_entries store).2.input_substitutions =
      tmExtend store.input_substitutions
        (new_entries.filter (fun e => strStarts e.1 "global_var_"))) ∧
    (∀ e, e ∈ new_entries.filter (fun e => strStarts e.1 "global_var_") ↔
      e ∈ new_entries ∧ strStarts e.1 "global_var_" = true) ∧
    (∀ k, strStarts k "global_var_" = false →
      tmGet (u.add_to_substitutions new_entries store).2.input_substitutions k =
        tmGet store.input_substitutions k) := by
  refine ⟨?_, ?_, rfl, ?_, ?_⟩
  · intro k hk
    exact isSome_tmGet_tmExtend_of_isSome u.substitutions new_entries k hk
  · intro k hk
    exact isSome_tmGet_tmExtend_of_mem u.substitutions new_entries k hk
  · intro e
    exact List.mem_filter
  · intro k hk
    apply tmGet_tmExtend_of_not_mem
    intro hmem
    rcases List.mem_map.mp hmem with ⟨e, hef, hek⟩
    have := (List.mem_filter.mp hef).2
    rw [hek] at this
    rw [this] at hk
    cases hk

/-- Witness for C7: publishing a `global_var_` binding makes it visible in
the unit's local map afterwards. -/
theorem c7_witness :
    (tmGet ((unitNonEmpty.add_to_substitutions
        [("global_var_owner", "FOO"), ("local_tag", "x")]
        { input_substitutions := []
          global_rules := []
          language_name := "java" }).1.substitutions) "global_var_owner").isSome
      = true :=
  (c7_add_to_substitutions unitNonEmpty
    [("global_var_owner", "FOO"), ("local_tag", "x")]
    { input_substitutions := []
      global_rules := []
      language_name := "java" }).2.1 "global_var_owner" (by decide)

/-! Recovery (`remove_additional_comma_from_sequence_list`,
source_code_unit.rs:121-165).  The incremental reparse of the external
tree-sitter parser is modelled by an arbitrary function
`parse : String → TSTree`; the `SourceCodeUnit` invariant (spec §3) that the
tree is the parse of exactly the current code is the hypothesis of the
theorem. -/

/-- A character of the ASCII class matched by regex `\s`. -/
def isWsChar (c : Char) : Bool :=
  c == ' ' || c == '\t' || c == '\n' || c == '\x0B' || c == '\x0C' || c == '\r'

/-- Model of `Regex::new(r",\s*\n*,").replace_all(s, ",")`: a leftmost scan
collapsing a comma, a whitespace run and a comma into a single comma (since
`\n` is inside `\s`, the pattern is a comma, any whitespace, a comma). -/
def collapseCommas : List Char → List Char
  | [] => []
  | c :: cs =>
    if c = ',' then
      if (cs.drop ((cs.takeWhile isWsChar).length)).head? = some ',' then
        ',' :: collapseCommas (cs.drop ((cs.takeWhile isWsChar).length + 1))
      else
        ',' :: collapseCommas cs
    else c :: collapseCommas cs
termination_by l => l.length
decreasing_by
  · simp only [List.length_cons, List.length_drop]
    omega
  · simp only [List.length_cons]
    omega
  · simp only [List.length_cons]
    omega

/-- Model of `Regex::new(r"\[\s*\n*,").replace_all(s, "[")`: a leftmost scan
deleting the whitespace run and comma that follow an opening bracket. -/
def collapseBracket : List Char → List Char
  | [] => []
  | c :: cs =>
    if c = '[' then
      if (cs.drop ((cs.takeWhile isWsChar).length)).head? = some ',' then
        '[' :: collapseBracket (cs.drop ((cs.takeWhile isWsChar).length + 1))
      else
        '[' :: collapseBracket cs
    else c :: collapseBracket cs
termination_by l => l.length
decreasing_by
  · simp only [List.length_cons, List.length_drop]
    omega
  · simp only [List.length_cons]
    omega
  · simp only [List.length_cons]
    omega

/-- The two textual regex fixes of recovery step 2, in source order: first
collapse `,\s*\n*,` to `,`, then `\[\s*\n*,` to `[`. -/
def fixCommas (code : String) : String :=
  ⟨collapseBracket (collapseCommas code.data)⟩

/-- Recovery step 1 as the source performs it
(source_code_unit.rs:123-137): walk the post-order snapshot; for an extra
node whose text is a comma (up to whitespace), delete its range and reparse;
on remaining error restore the pre-attempt text and tree and continue, else
stop.  The pair threads the unit's `(code, ast)` state. -/
def step1Go (parse : String → TSTree) (code0 : String) (ast : TSTree) :
    List TSNode → String × TSTree
  | [] => (code0, ast)
  | n :: rest =>
    if n.isExtra && eq_without_whitespace (nodeText code0 n) "," then
      if (parse (deleteRange code0 n)).rootHasError then
        step1Go parse code0 (parse code0) rest
      else
        (deleteRange code0 n, parse (deleteRange code0 n))
    else step1Go parse code0 ast rest

/-- The final error check of the source (source_code_unit.rs:156-163): panic
(here `.error` with the final source) iff the root still has an error and
some node carries the error flag. -/
def srcStage3 (s2 : String × TSTree) : Except String (String × TSTree) :=
  if s2.2.rootHasError && s2.2.nodes.any (fun n => n.isError) then
    .error s2.1
  else
    .ok s2

/-- Recovery step 2 as the source performs it (source_code_unit.rs:140-164):
if the tree still has errors, apply the two regex fixes, reparse only when
the text changed, then run the final error check. -/
def srcStage2 (parse : String → TSTree) (s1 : String × TSTree) :
    Except String (String × TSTree) :=
  if s1.2.rootHasError then
    srcStage3
      (if s1.1 = fixCommas s1.1 then s1
       else (fixCommas s1.1, parse (fixCommas s1.1)))
  else .ok s1

/-- `SourceCodeUnit::remove_additional_comma_from_sequence_list`
(source_code_unit.rs:121-165) over the abstract parser, acting on the unit's
`(code, ast)` state and returning `.error` with the final source instead of
panicking. -/
def remove_additional_comma_from_sequence_list (parse : String → TSTree)
    (code : String) (ast : TSTree) : Except String (String × TSTree) :=
  srcStage2 parse
    (if ast.rootHasError then step1Go parse code ast ast.nodes else (code, ast))

/-- Recovery step 1 in the claim's words: traverse the tree post-order, and
for each extra comma node whose deletion clears the error stop with the
deleted text; otherwise keep the pre-attempt text and continue. -/
def step1Spec (parse : String → TSTree) (code0 : String) :
    List TSNode → String
  | [] => code0
  | n :: rest =>
    if n.isExtra && eq_without_whitespace (nodeText code0 n) "," then
      if (parse (deleteRange code0 n)).rootHasError then
        step1Spec parse code0 rest
      else
        deleteRange code0 n
    else step1Spec parse code0 rest

/-- Recovery steps 2 and 3 in the claim's words: if still errored, apply the
two regex rewrites and reparse; if after that any node still carries the
error flag, abort fatally with the final source. -/
def specStage2 (parse : String → TSTree) (code1 : String) :
    Except String (String × TSTree) :=
  if (parse code1).rootHasError then
    if (parse (fixCommas code1)).nodes.any (fun n => n.isError) then
      .error (fixCommas code1)
    else
      .ok (fixCommas code1, parse (fixCommas code1))
  else .ok (code1, parse code1)

/-- The recovery procedure exactly as claim C2 words it, steps (1)-(3) in
order, applied when the root node has errors. -/
def recoverySpecC2 (parse : String → TSTree) (code : String) (ast : TSTree) :
    Except String (String × TSTree) :=
  if ast.rootHasError then
    specStage2 parse (step1Spec parse code ast.nodes)
  else .ok (code, ast)

lemma any_isError_imp_rootHasError (t : TSTree)
    (h : t.nodes.any (fun n => n.isError) = true) : t.rootHasError = true := by
  rcases List.any_eq_true.mp h with ⟨n, hn, he⟩
  exact List.any_eq_true.mpr ⟨n, hn, by rw [he]; rfl⟩

lemma rootHasError_and_any (t : TSTree) :
    (t.rootHasError && t.nodes.any (fun n => n.isError)) =
      t.nodes.any (fun n => n.isError) := by
  cases hany : t.nodes.any (fun n => n.isError) with
  | false => simp
  | true => simp [any_isError_imp_rootHasError t hany]

lemma srcStage3_eq (c : String) (t : TSTree) :
    srcStage3 (c, t) =
      if t.nodes.any (fun n => n.isError) = true then .error c
      else .ok (c, t) := by
  unfold srcStage3
  rw [rootHasError_and_any]

lemma srcStage2_eq_specStage2 (parse : String → TSTree) (c1 : String) :
    srcStage2 parse (c1, parse c1) = specStage2 parse c1 := by
  unfold srcStage2 specStage2
  by_cases herr : (parse c1).rootHasError
  · rw [if_pos herr, if_pos herr]
    by_cases heq : c1 = fixCommas c1
    · rw [if_pos heq, ← heq, srcStage3_eq]
    · rw [if_neg heq, srcStage3_eq]
  · rw [if_neg herr, if_neg herr]

lemma step1Go_eq_step1Spec (parse : String → TSTree) (code0 : String)
    (ns : List TSNode) :
    ∀ ast, ast = parse code0 →
      step1Go parse code0 ast ns =
        (step1Spec parse code0 ns, parse (step1Spec parse code0 ns)) := by
  induction ns with
  | nil =>
    intro ast hast
    rw [step1Go, step1Spec, hast]
  | cons n rest ih =>
    intro ast hast
    rw [step1Go, step1Spec]
    by_cases hcomma :
        (n.isExtra && eq_without_whitespace (nodeText code0 n) ",") = true
    · rw [if_pos hcomma, if_pos hcomma]
      by_cases herr : (parse (deleteRange code0 n)).rootHasError = true
      · rw [if_pos herr, if_pos herr]
        exact ih (parse code0) rfl
      · rw [if_neg herr, if_neg herr]
    · rw [if_neg hcomma, if_neg hcomma]
      exact ih ast hast

/-- C2: under the Source Code Unit invariant that the tree is the parse of
the current code, the recovery of the source is exactly the three-step
procedure of the claim: post-order extra-comma deletion with revert on
failure, then the two regex rewrites with reparse, then a fatal abort
carrying the final source iff a node still has the error flag. -/
theorem c2_recovery_refines_spec (parse : String → TSTree) (code : String)
    (ast : TSTree) (hast : ast = parse code) :
    remove_additional_comma_from_sequence_list parse code ast =
      recoverySpecC2 parse code ast := by
  unfold remove_additional_comma_from_sequence_list recoverySpecC2
  by_cases h0 : ast.rootHasError = true
  · rw [if_pos h0, if_pos h0]
    rw [step1Go_eq_step1Spec parse code ast.nodes ast hast]
    exact srcStage2_eq_specStage2 parse (step1Spec parse code ast.nodes)
  · rw [if_neg h0, if_neg h0, srcStage2, if_neg]
    rw [hast]
    simp only [hast] at h0
    exact h0

/-- A concrete parser stub used by the C2 witness: `f(a, , c)` (the claim's
scenario) parses to a tree with an extra comma node and an error, its
comma-deleted repair parses cleanly, and everything else parses to an
error-free empty tree. -/
def parseStub (s : String) : TSTree :=
  if s = "f(a, , c)" then
    ⟨[{ isExtra := true, isError := false, isMissing := false,
        startByte := 5, endByte := 6 },
      { isExtra := false, isError := true, isMissing := false,
        startByte := 0, endByte := 9 }]⟩
  else ⟨[]⟩

/-- Witness for C2: on the `f(a, , c)` scenario the source recovery and the
claim's procedure coincide (both delete the extra comma). -/
theorem c2_witness :
    remove_additional_comma_from_sequence_list parseStub "f(a, , c)"
        (parseStub "f(a, , c)") =
      recoverySpecC2 parseStub "f(a, , c)" (parseStub "f(a, , c)") :=
  c2_recovery_refines_spec parseStub "f(a, , c)" (parseStub "f(a, , c)") rfl

/-! Flag Cleaner (`src/generic/piranha/src/piranha/flag_cleaner.rs`). -/

/-- Modelled from the spec: the `grep_heuristics()` accessor of the rule
struct used by the flag cleaner (its `rule_store` module is not under
`src/`): the rule's plaintext fragments, empty when absent. -/
def Rule.grepHeuristicsList (r : Rule) : List String :=
  r.grep_heuristics.getD []

/-- Lexicographic order on character lists (Rust's `String` ordering). -/
def charListLe : List Char → List Char → Bool
  | [], _ => true
  | _ :: _, [] => false
  | a :: as, b :: bs =>
    if a < b then true
    else if b < a then false
    else charListLe as bs

/-- Lexicographic string comparison over character lists. -/
def strLeB (a b : String) : Bool := charListLe a.data b.data

/-- Insertion of a string into a sorted list (helper of the stable sort
modelling itertools `sorted`). -/
def insertSorted (x : String) : List String → List String
  | [] => [x]
  | y :: ys => if strLeB x y then x :: y :: ys else y :: insertSorted x ys

/-- Stable insertion sort, modelling the itertools `sorted` adaptor. -/
def sortStrings (l : List String) : List String := l.foldr insertSorted []

lemma mem_insertSorted (x p : String) (l : List String) :
    p ∈ insertSorted x l ↔ p = x ∨ p ∈ l := by
  induction l with
  | nil => simp [insertSorted]
  | cons y ys ih =>
    unfold insertSorted
    by_cases hle : strLeB x y = true
    · simp [hle]
    · simp only [Bool.not_eq_true] at hle
      simp only [hle, Bool.false_eq_true, if_false, List.mem_cons, ih]
      tauto

lemma mem_sortStrings (p : String) (l : List String) :
    p ∈ sortStrings l ↔ p ∈ l := by
  induction l with
  | nil => simp [sortStrings]
  | cons y ys ih =>
    show p ∈ insertSorted y (sortStrings ys) ↔ _
    rw [mem_insertSorted, ih, List.mem_cons]

/-- `FlagCleaner::get_grep_heuristics` (flag_cleaner.rs:148-162), returning
the alternation branches instead of the compiled `Regex`: flat-map the
heuristics of the global rules, sort, dedup, and drop the literal strings
`"true"` and `"false"`. -/
def get_grep_heuristics (store : RuleStore) : List String :=
  ((sortStrings ((store.global_rules.map Rule.grepHeuristicsList).flatten)).dedup).filter
    (fun x => !(x == "true") && !(x == "false"))

/-- Rust `Regex::is_match` for a `'|'`-alternation of literal fragments, as
built by `get_grep_heuristics`: the empty pattern (no branches) matches every
text, otherwise some branch must occur in the text. -/
def alternationIsMatch (branches : List String) (text : String) : Bool :=
  match branches with
  | [] => true
  | _ => branches.any (fun p => strContains text p)

/-- A file met by the directory walk: its path, extension and contents. -/
structure FileEntry where
  path : String
  extension : Option String
  content : String
deriving DecidableEq

/-- `FlagCleaner::get_files_containing_feature_flag_api_usage`
(flag_cleaner.rs:94-128).  The parallel `WalkDir` traversal and `read_file`
are modelled by the given entry list; keep the files whose extension equals
the target language's name and whose content matches the grep heuristic
pattern. -/
def get_files_containing_feature_flag_api_usage (store : RuleStore)
    (files : List FileEntry) : List FileEntry :=
  (files.filter (fun de => de.extension = some store.language_name)).filter
    (fun f => alternationIsMatch (get_grep_heuristics store) f.content)

/-- C4: the pre-filter keeps exactly the files whose extension equals the
language name and whose text matches the alternation of the distinct
grep-heuristic strings of the active global rules minus the literals
`"true"`/`"false"`; when heuristics exist, a file matching none of them is
never kept (hence never parsed). -/
theorem c4_grep_prefilter (store : RuleStore) (files : List FileEntry)
    (f : FileEntry) :
    (f ∈ get_files_containing_feature_flag_api_usage store files ↔
      f ∈ files ∧ f.extension = some store.language_name ∧
        alternationIsMatch (get_grep_heuristics store) f.content = true) ∧
    (∀ p, p ∈ get_grep_heuristics store ↔
      ((∃ r ∈ store.global_rules, p ∈ r.grepHeuristicsList) ∧
        p ≠ "true" ∧ p ≠ "false")) ∧
    (get_grep_heuristics store ≠ [] →
      (∀ p ∈ get_grep_heuristics store, strContains f.content p = false) →
      f ∉ get_files_containing_feature_flag_api_usage store files) := by
  refine ⟨?_, ?_, ?_⟩
  · simp only [get_files_containing_feature_flag_api_usage, List.mem_filter,
      decide_eq_true_eq]
    tauto
  · intro p
    simp only [get_grep_heuristics, List.mem_filter, List.mem_dedup,
      mem_sortStrings, List.mem_flatten, List.mem_map]
    constructor
    · rintro ⟨⟨l, ⟨r, hr, hrl⟩, hpl⟩, hbool⟩
      have hb := hbool
      simp only [Bool.and_eq_true, Bool.not_eq_true', beq_eq_false_iff_ne] at hb
      exact ⟨⟨r, hr, hrl ▸ hpl⟩, hb.1, hb.2⟩
    · rintro ⟨⟨r, hr, hpr⟩, ht, hf⟩
      refine ⟨⟨r.grepHeuristicsList, ⟨r, hr, rfl⟩, hpr⟩, ?_⟩
      simp only [Bool.and_eq_true, Bool.not_eq_true', beq_eq_false_iff_ne]
      exact ⟨ht, hf⟩
  · intro hne hnomatch hmem
    have hmatch :
        alternationIsMatch (get_grep_heuristics store) f.content = true :=
      (List.mem_filter.mp hmem).2
    unfold alternationIsMatch at hmatch
    cases hgh : get_grep_heuristics store with
    | nil => exact hne hgh
    | cons q qs =>
      rw [hgh] at hmatch
      rcases List.any_eq_true.mp hmatch with ⟨p, hp, hps⟩
      rw [hnomatch p (hgh ▸ hp)] at hps
      cases hps

/-- A global rule with a populated heuristic list, used by the C4 witness. -/
def ruleGlobalC4 : Rule :=
  { name := "global_delete_decl"
    query := "(field_declaration) @fd"
    replace_node := "fd"
    replace := ""
    groups := none
    holes := none
    constraint := none
    grep_heuristics := some ["FOO_enabled", "true"] }

/-- The store used by the C4 witness. -/
def storeC4 : RuleStore :=
  { input_substitutions := []
    global_rules := [ruleGlobalC4]
    language_name := "java" }

/-- A file whose text matches no heuristic, used by the C4 witness. -/
def fileNoMatch : FileEntry :=
  { path := "Other.java"
    extension := some "java"
    content := "class Other { }" }

/-- Witness for C4: with the single heuristic `FOO_enabled` active (`true`
being excluded), a java file not containing it is filtered out. -/
theorem c4_witness :
    fileNoMatch ∉
      get_files_containing_feature_flag_api_usage storeC4 [fileNoMatch] :=
  (c4_grep_prefilter storeC4 [fileNoMatch] fileNoMatch).2.2 (by decide)
    (by decide)

/-- The per-pass inner file loop of `FlagCleaner::perform_cleanup`
(flag_cleaner.rs:61-84), over an abstract cleaner state `σ` (the rule store
together with the cached source code units and the parser, mutated by
`apply_rules`): process the files in order, breaking as soon as the number
of global rules exceeds the length of the rule snapshot taken at the start
of the pass.  `applyFile s rules f` abstracts
`relevant_files.entry(f).apply_rules(store, rules, parser, None)`. -/
def passGo {σ : Type} (globalRules : σ → List Rule)
    (applyFile : σ → List Rule → String → σ) (current_rules : List Rule) :
    List String → σ → σ
  | [], s => s
  | f :: fs, s =>
    if (globalRules (applyFile s current_rules f)).length > current_rules.length
    then applyFile s current_rules f
    else passGo globalRules applyFile current_rules fs
      (applyFile s current_rules f)

/-- One outer pass of `perform_cleanup`: snapshot `current_rules`, recompute
the file list from the current state (the grep-heuristic walk), run the
per-file loop. -/
def onePass {σ : Type} (globalRules : σ → List Rule)
    (applyFile : σ → List Rule → String → σ) (filesOf : σ → List String)
    (s : σ) : σ :=
  passGo globalRules applyFile (globalRules s) (filesOf s) s

/-- `FlagCleaner::perform_cleanup` (flag_cleaner.rs:45-90), with explicit
fuel standing for the unbounded `loop`: run passes until one ends with the
global-rule count unchanged; `none` when the fuel is exhausted. -/
def perform_cleanup {σ : Type} (globalRules : σ → List Rule)
    (applyFile : σ → List Rule → String → σ) (filesOf : σ → List String) :
    Nat → σ → Option σ
  | 0, _ => none
  | fuel + 1, s =>
    if (globalRules (onePass globalRules applyFile filesOf s)).length =
        (globalRules s).length
    then some (onePass globalRules applyFile filesOf s)
    else perform_cleanup globalRules applyFile filesOf fuel
      (onePass globalRules applyFile filesOf s)

/-- The `k`-fold iteration of outer passes. -/
def iterPass {σ : Type} (globalRules : σ → List Rule)
    (applyFile : σ → List Rule → String → σ) (filesOf : σ → List String) :
    Nat → σ → σ
  | 0, s => s
  | n + 1, s =>
    iterPass globalRules applyFile filesOf n
      (onePass globalRules applyFile filesOf s)

lemma length_le_passGo {σ : Type} (globalRules : σ → List Rule)
    (applyFile : σ → List Rule → String → σ) (current_rules : List Rule)
    (hmono : ∀ s' rules f,
      (globalRules s').length ≤ (globalRules (applyFile s' rules f)).length)
    (fs : List String) :
    ∀ s, (globalRules s).length ≤
      (globalRules (passGo globalRules applyFile current_rules fs s)).length := by
  induction fs with
  | nil => intro s; exact Nat.le_refl _
  | cons f fs ih =>
    intro s
    rw [passGo]
    by_cases hb :
        (globalRules (applyFile s current_rules f)).length > current_rules.length
    · rw [if_pos hb]
      exact hmono s current_rules f
    · rw [if_neg hb]
      exact Nat.le_trans (hmono s current_rules f)
        (ih (applyFile s current_rules f))

lemma length_le_onePass {σ : Type} (globalRules : σ → List Rule)
    (applyFile : σ → List Rule → String → σ) (filesOf : σ → List String)
    (hmono : ∀ s' rules f,
      (globalRules s').length ≤ (globalRules (applyFile s' rules f)).length)
    (s : σ) :
    (globalRules s).length ≤
      (globalRules (onePass globalRules applyFile filesOf s)).length :=
  length_le_passGo globalRules applyFile (globalRules s) hmono (filesOf s) s

/-- C3: the cleanup loop (i) leaves the per-file loop as soon as a file's
processing pushes the global-rule count above the snapshot taken at the
start of the pass, (ii) keeps the global-rule count non-decreasing across
passes when `apply_rules` never shrinks it, and (iii) with any amount of
fuel terminates exactly when some pass ends with the global-rule count
unchanged — i.e. when the count stops growing. -/
theorem c3_perform_cleanup {σ : Type} (globalRules : σ → List Rule)
    (applyFile : σ → List Rule → String → σ) (filesOf : σ → List String)
    (s : σ)
    (hmono : ∀ s' rules f,
      (globalRules s').length ≤ (globalRules (applyFile s' rules f)).length) :
    (∀ current_rules f fs s',
      (globalRules (applyFile s' current_rules f)).length > current_rules.length →
      passGo globalRules applyFile current_rules (f :: fs) s' =
        applyFile s' current_rules f) ∧
    (∀ k, (globalRules (iterPass globalRules applyFile filesOf k s)).length ≤
      (globalRules (iterPass globalRules applyFile filesOf (k + 1) s)).length) ∧
    ((∃ fuel s', perform_cleanup globalRules applyFile filesOf fuel s = some s')
      ↔ (∃ k,
        (globalRules (iterPass globalRules applyFile filesOf (k + 1) s)).length =
          (globalRules (iterPass globalRules applyFile filesOf k s)).length)) := by
  refine ⟨?_, ?_, ?_, ?_⟩
  · intro current_rules f fs s' hgt
    rw [passGo, if_pos hgt]
  · intro k
    induction k generalizing s with
    | zero =>
      exact length_le_onePass globalRules applyFile filesOf hmono s
    | succ k ih =>
      exact ih (onePass globalRules applyFile filesOf s)
  · rintro ⟨fuel, s', hrun⟩
    clear hmono
    induction fuel generalizing s with
    | zero => cases hrun
    | succ fuel ih =>
      rw [perform_cleanup] at hrun
      by_cases heq :
          (globalRules (onePass globalRules applyFile filesOf s)).length =
            (globalRules s).length
      · exact ⟨0, heq⟩
      · rw [if_neg heq] at hrun
        rcases ih (onePass globalRules applyFile filesOf s) hrun with ⟨k, hk⟩
        exact ⟨k + 1, hk⟩
  · rintro ⟨k, hk⟩
    clear hmono
    induction k generalizing s with
    | zero =>
      have hk' :
          (globalRules (onePass globalRules applyFile filesOf s)).length =
            (globalRules s).length := hk
      refine ⟨1, onePass globalRules applyFile filesOf s, ?_⟩
      rw [perform_cleanup, if_pos hk']
    | succ k ih =>
      by_cases heq :
          (globalRules (onePass globalRules applyFile filesOf s)).length =
            (globalRules s).length
      · refine ⟨1, onePass globalRules applyFile filesOf s, ?_⟩
        rw [perform_cleanup, if_pos heq]
      · rcases ih (onePass globalRules applyFile filesOf s) hk with ⟨fuel, s', hps⟩
        refine ⟨fuel + 1, s', ?_⟩
        rw [perform_cleanup, if_neg heq]
        exact hps

/-- A stub `apply_rules` that leaves the state unchanged (C3 witness). -/
def cleanerApplyStub (s : RuleStore) (rules : List Rule) (f : String) :
    RuleStore := s

/-- A stub file walk returning one file (C3 witness). -/
def cleanerFilesStub (s : RuleStore) : List String := ["Sample.java"]

/-- The initial store of the C3 witness. -/
def storeStub : RuleStore :=
  { input_substitutions := []
    global_rules := []
    language_name := "java" }

/-- Witness for C3: with a state-preserving `apply_rules` the global-rule
count is stable after the first pass, so the loop terminates. -/
theorem c3_witness :
    ∃ fuel s', perform_cleanup RuleStore.global_rules cleanerApplyStub
      cleanerFilesStub fuel storeStub = some s' :=
  ((c3_perform_cleanup RuleStore.global_rules cleanerApplyStub
      cleanerFilesStub storeStub
      (fun s' rules f => Nat.le_refl _)).2.2).mpr ⟨0, rfl⟩

end Piranha
